import Mathlib

/-!
Shallow embedding of the `small-hash-map` Rust crate.

The crate provides `SmallHashMap<K, V, N, S>`: an adaptive map that stores up
to `N` entries in a fixed-capacity inline store (`InlineMap`, two parallel
arrays plus a length counter, linear scan) and promotes — once, inside
`insert` — to a heap store (`HeapMap`, a wrapper over `std::collections::HashMap`).

Modelling conventions:
- The live prefix `keys[0..len] / values[0..len]` of `InlineMap` is modelled as
  a single list `entries : List (K × V)`; `len` is its length.  The
  uninitialized tail `[len, N)` is never read by the source, so it has no
  observable content and is not modelled.  The const generic `N` is passed to
  the operations that consult it.
- Rust key equality `==` (`K: Eq`) is an equivalence that may identify
  structurally different values, so it is modelled as an explicit boolean
  comparison `keq : K → K → Bool`; every source scan compares
  `stored_key == query_key`, i.e. `keq stored query`.
- Operations that can panic (`InlineMap::insert`, `InlineMap::insert_with_hint`
  when the store is full and the key is new, and `SmallHashMap::insert` which
  calls them) return `Option`, with `none` modelling the panic.
- The hashing strategy `S` only chooses bucket placement inside the std
  `HashMap`; it has no effect on any observable modelled here (get / insert
  result / remove / len / equality), so it is not carried in the model.
-/

variable {K V : Type}

/-- The linear scan shared by `InlineMap::get`, `get_mut`, `get_key_value` and
`HeapMap` lookups: the first live entry whose stored key compares equal (by
`keq`, stored key on the left) to the query key. -/
def findEntry (keq : K → K → Bool) (k : K) : List (K × V) → Option (K × V)
  | [] => none
  | e :: rest => if keq e.1 k then some e else findEntry keq k rest

/-- The index scan of `InlineMap::find_key_index` (inline_map.rs:253-260):
position of the first live entry whose stored key compares equal to the query
key. -/
def findIdxEntry (keq : K → K → Bool) (k : K) : List (K × V) → Option Nat
  | [] => none
  | e :: rest => if keq e.1 k then some 0 else (findIdxEntry keq k rest).map (· + 1)

/-- The existing-key branch of `InlineMap::insert` (inline_map.rs:199-205) and
of `HashMap::insert`: replace the value at the first matching position, keep
the stored key, and return the replaced value; `none` when no key matches. -/
def replaceValueScan (keq : K → K → Bool) (k : K) (v : V) :
    List (K × V) → Option (List (K × V) × V)
  | [] => none
  | e :: rest =>
      if keq e.1 k then some ((e.1, v) :: rest, e.2)
      else (replaceValueScan keq k v rest).map (fun r => (e :: r.1, r.2))

/-- The scan of `InlineMap::remove` (inline_map.rs:222-239): find the first
matching entry, capture its value, and shift every later live entry one
position left. -/
def removeScan (keq : K → K → Bool) (k : K) :
    List (K × V) → Option (List (K × V) × V)
  | [] => none
  | e :: rest =>
      if keq e.1 k then some (rest, e.2)
      else (removeScan keq k rest).map (fun r => (e :: r.1, r.2))

/-- `InlineMap<K, V, N>` (inline_map.rs:12-16): the live prefix of the two
parallel arrays, in insertion order. -/
structure InlineMap (K V : Type) where
  entries : List (K × V)
deriving DecidableEq

/-- `InlineMap::len` (inline_map.rs:89-91). -/
def InlineMap.len (m : InlineMap K V) : Nat :=
  m.entries.length

/-- `InlineMap::new` (inline_map.rs:73-79). -/
def InlineMap.new : InlineMap K V :=
  ⟨[]⟩

/-- `InlineMap::is_empty` (inline_map.rs:94-96). -/
def InlineMap.is_empty (m : InlineMap K V) : Bool :=
  m.len == 0

/-- `InlineMap::clear` (inline_map.rs:142-151). -/
def InlineMap.clear (_m : InlineMap K V) : InlineMap K V :=
  ⟨[]⟩

/-- `InlineMap::get` (inline_map.rs:154-162). -/
def InlineMap.get (keq : K → K → Bool) (m : InlineMap K V) (k : K) : Option V :=
  (findEntry keq k m.entries).map Prod.snd

/-- `InlineMap::get_key_value` (inline_map.rs:176-186): returns the stored key
together with the value. -/
def InlineMap.get_key_value (keq : K → K → Bool) (m : InlineMap K V) (k : K) :
    Option (K × V) :=
  findEntry keq k m.entries

/-- `InlineMap::find_key_index` (inline_map.rs:253-260). -/
def InlineMap.find_key_index (keq : K → K → Bool) (m : InlineMap K V) (k : K) :
    Option Nat :=
  findIdxEntry keq k m.entries

/-- `InlineMap::contains_key` (inline_map.rs:245-247). -/
def InlineMap.contains_key (keq : K → K → Bool) (m : InlineMap K V) (k : K) : Bool :=
  (m.find_key_index keq k).isSome

/-- `InlineMap::insert` (inline_map.rs:197-217): scan for an existing key; if
found replace its value in place (the stored key is kept) and return the old
value; otherwise append at the end, or panic (`none`) when `len >= N`. -/
def InlineMap.insert (keq : K → K → Bool) (N : Nat) (m : InlineMap K V)
    (k : K) (v : V) : Option (InlineMap K V × Option V) :=
  match replaceValueScan keq k v m.entries with
  | some r => some (⟨r.1⟩, some r.2)
  | none =>
      if m.entries.length ≥ N then none
      else some (⟨m.entries ++ [(k, v)]⟩, none)

/-- `InlineMap::insert_with_hint` (inline_map.rs:273-297): with hint `some i`,
replace the value at index `i`, drop the old key and store the newly supplied
key there, and return the old value; with hint `none`, append at the end, or
panic (`none`) when `len >= N`.  No key comparison is performed. -/
def InlineMap.insert_with_hint (N : Nat) (m : InlineMap K V) (k : K) (v : V)
    (existing_index : Option Nat) : Option (InlineMap K V × Option V) :=
  match existing_index with
  | some i => some (⟨m.entries.set i (k, v)⟩, (m.entries[i]?).map Prod.snd)
  | none =>
      if m.entries.length ≥ N then none
      else some (⟨m.entries ++ [(k, v)]⟩, none)

/-- `InlineMap::remove` (inline_map.rs:221-242): the first component is the
resulting store, the second the captured value (`none` when the key is
absent, in which case the store is unchanged). -/
def InlineMap.remove (keq : K → K → Bool) (m : InlineMap K V) (k : K) :
    InlineMap K V × Option V :=
  match removeScan keq k m.entries with
  | some r => (⟨r.1⟩, some r.2)
  | none => (m, none)

/-- The cursor loop of `InlineMap::retain` (inline_map.rs:356-390): while the
cursor `i` is below the (shrinking) length, keep the entry and advance when
the predicate holds, otherwise drop the entry, shift all later entries one
position left, and re-examine position `i`. -/
def retainLoop (f : K → V → Bool) (i : Nat) (l : List (K × V)) : List (K × V) :=
  if h : i < l.length then
    let e := l.get ⟨i, h⟩
    if f e.1 e.2 then retainLoop f (i + 1) l
    else retainLoop f i (l.eraseIdx i)
  else l
termination_by l.length - i
decreasing_by
  · omega
  · rw [List.length_eraseIdx]
    simp only [h, if_true]
    omega

/-- `InlineMap::retain` (inline_map.rs:356-390). -/
def InlineMap.retain (f : K → V → Bool) (m : InlineMap K V) : InlineMap K V :=
  ⟨retainLoop f 0 m.entries⟩

/-- `InlineMap::drain` (inline_map.rs:404-422): destructively extracts all live
entries in index order, leaving the store empty (len is reset to 0 before any
entry is moved). -/
def InlineMap.drain (m : InlineMap K V) : List (K × V) × InlineMap K V :=
  (m.entries, ⟨[]⟩)

/-- `HeapMap<K, V, S>` (heap_map.rs:11-13), a thin wrapper over
`std::collections::HashMap`.  The std table is external to the repository; it
is modelled extensionally by its documented contract: entries with unique
keys, `get` finds the matching entry, `insert` replaces the value of an
existing key (keeping the originally stored key, per std's documentation) and
returns the old value, or stores a new entry and returns nothing; `remove`
deletes the matching entry.  Iteration order of a std `HashMap` is
unspecified; the model keeps entries as a list but no theorem below relies on
heap-side order. -/
structure HeapMap (K V : Type) where
  entries : List (K × V)
deriving DecidableEq

/-- `HeapMap::new` / `with_capacity_and_hasher` (heap_map.rs:55-90): capacity
and hasher only affect allocation, not contents. -/
def HeapMap.new : HeapMap K V :=
  ⟨[]⟩

/-- `HeapMap::len` (heap_map.rs:98-100). -/
def HeapMap.len (m : HeapMap K V) : Nat :=
  m.entries.length

/-- `HeapMap::is_empty` (heap_map.rs:103-105). -/
def HeapMap.is_empty (m : HeapMap K V) : Bool :=
  m.len == 0

/-- `HeapMap::clear` (heap_map.rs:115-117). -/
def HeapMap.clear (_m : HeapMap K V) : HeapMap K V :=
  ⟨[]⟩

/-- `HeapMap::get` (heap_map.rs:120-122). -/
def HeapMap.get (keq : K → K → Bool) (m : HeapMap K V) (k : K) : Option V :=
  (findEntry keq k m.entries).map Prod.snd

/-- `HeapMap::get_key_value` (heap_map.rs:130-132): returns the stored key. -/
def HeapMap.get_key_value (keq : K → K → Bool) (m : HeapMap K V) (k : K) :
    Option (K × V) :=
  findEntry keq k m.entries

/-- `HeapMap::contains_key` (heap_map.rs:150-152). -/
def HeapMap.contains_key (keq : K → K → Bool) (m : HeapMap K V) (k : K) : Bool :=
  (findEntry keq k m.entries).isSome

/-- `HeapMap::insert` (heap_map.rs:139-141), delegating to `HashMap::insert`:
if the key is present the value is updated (the key is not updated) and the
old value returned; otherwise the new entry is stored. -/
def HeapMap.insert (keq : K → K → Bool) (m : HeapMap K V) (k : K) (v : V) :
    HeapMap K V × Option V :=
  match replaceValueScan keq k v m.entries with
  | some r => (⟨r.1⟩, some r.2)
  | none => (⟨m.entries ++ [(k, v)]⟩, none)

/-- `HeapMap::remove` (heap_map.rs:145-147). -/
def HeapMap.remove (keq : K → K → Bool) (m : HeapMap K V) (k : K) :
    HeapMap K V × Option V :=
  match removeScan keq k m.entries with
  | some r => (⟨r.1⟩, some r.2)
  | none => (m, none)

/-- `HeapMap::retain` (heap_map.rs:184-189), delegating to `HashMap::retain`:
keeps exactly the entries satisfying the predicate. -/
def HeapMap.retain (f : K → V → Bool) (m : HeapMap K V) : HeapMap K V :=
  ⟨m.entries.filter (fun e => f e.1 e.2)⟩

/-- `MapKind<K, V, N, S>` (map.rs:12-15): the closed two-case tagged union. -/
inductive MapKind (K V : Type) where
  | InlineMap (m : InlineMap K V)
  | HeapMap (m : HeapMap K V)
deriving DecidableEq

/-- `SmallHashMap<K, V, N, S>` (small_hash_map.rs:45-49).  `capN` models the
const generic `N` (the inline capacity); `transition_threshold` is the field
of the same name, set to `N` by every constructor.  The `hash_builder` field
has no modelled observable effect and is omitted. -/
structure SmallHashMap (K V : Type) where
  inner : MapKind K V
  capN : Nat
  transition_threshold : Nat
deriving DecidableEq

/-- `SmallHashMap::new` / `with_hasher` (small_hash_map.rs:127-133). -/
def SmallHashMap.new (N : Nat) : SmallHashMap K V :=
  ⟨MapKind.InlineMap InlineMap.new, N, N⟩

/-- `SmallHashMap::with_capacity` / `with_capacity_and_hasher`
(small_hash_map.rs:151-171): starts in heap mode when the capacity hint
exceeds `N`, otherwise inline (the hint is ignored by `InlineMap`). -/
def SmallHashMap.with_capacity (N : Nat) (capacity : Nat) : SmallHashMap K V :=
  if capacity > N then
    ⟨MapKind.HeapMap HeapMap.new, N, N⟩
  else
    ⟨MapKind.InlineMap InlineMap.new, N, N⟩

/-- `SmallHashMap::len` (small_hash_map.rs:190-195). -/
def SmallHashMap.len (m : SmallHashMap K V) : Nat :=
  match m.inner with
  | MapKind.InlineMap im => im.len
  | MapKind.HeapMap hm => hm.len

/-- `SmallHashMap::is_empty` (small_hash_map.rs:198-203). -/
def SmallHashMap.is_empty (m : SmallHashMap K V) : Bool :=
  match m.inner with
  | MapKind.InlineMap im => im.is_empty
  | MapKind.HeapMap hm => hm.is_empty

/-- `SmallHashMap::is_inline` (small_hash_map.rs:238-240). -/
def SmallHashMap.is_inline (m : SmallHashMap K V) : Bool :=
  match m.inner with
  | MapKind.InlineMap _ => true
  | MapKind.HeapMap _ => false

/-- `SmallHashMap::clear` (small_hash_map.rs:243-248): dispatches to the active
store; the active variant is not changed. -/
def SmallHashMap.clear (m : SmallHashMap K V) : SmallHashMap K V :=
  match m.inner with
  | MapKind.InlineMap im => { m with inner := MapKind.InlineMap im.clear }
  | MapKind.HeapMap hm => { m with inner := MapKind.HeapMap hm.clear }

/-- `SmallHashMap::get` (small_hash_map.rs:263-268). -/
def SmallHashMap.get (keq : K → K → Bool) (m : SmallHashMap K V) (k : K) :
    Option V :=
  match m.inner with
  | MapKind.InlineMap im => im.get keq k
  | MapKind.HeapMap hm => hm.get keq k

/-- `SmallHashMap::get_key_value` (small_hash_map.rs:295-300). -/
def SmallHashMap.get_key_value (keq : K → K → Bool) (m : SmallHashMap K V)
    (k : K) : Option (K × V) :=
  match m.inner with
  | MapKind.InlineMap im => im.get_key_value keq k
  | MapKind.HeapMap hm => hm.get_key_value keq k

/-- `SmallHashMap::contains_key` (small_hash_map.rs:303-308). -/
def SmallHashMap.contains_key (keq : K → K → Bool) (m : SmallHashMap K V)
    (k : K) : Bool :=
  match m.inner with
  | MapKind.InlineMap im => im.contains_key keq k
  | MapKind.HeapMap hm => hm.contains_key keq k

/-- `SmallHashMap::remove` (small_hash_map.rs:312-317): dispatches to the
active store; the active variant is not changed. -/
def SmallHashMap.remove (keq : K → K → Bool) (m : SmallHashMap K V) (k : K) :
    SmallHashMap K V × Option V :=
  match m.inner with
  | MapKind.InlineMap im =>
      let r := im.remove keq k
      ({ m with inner := MapKind.InlineMap r.1 }, r.2)
  | MapKind.HeapMap hm =>
      let r := hm.remove keq k
      ({ m with inner := MapKind.HeapMap r.1 }, r.2)

/-- `SmallHashMap::retain` (small_hash_map.rs:378-386). -/
def SmallHashMap.retain (f : K → V → Bool) (m : SmallHashMap K V) :
    SmallHashMap K V :=
  match m.inner with
  | MapKind.InlineMap im => { m with inner := MapKind.InlineMap (im.retain f) }
  | MapKind.HeapMap hm => { m with inner := MapKind.HeapMap (hm.retain f) }

/-- The promotion loop of `SmallHashMap::insert` (small_hash_map.rs:436-443):
`for (k, v) in inline_map.drain() { heap_map.insert(k, v) }` starting from a
fresh heap store (its capacity hint only affects allocation). -/
def heapOfDrained (keq : K → K → Bool) (l : List (K × V)) : HeapMap K V :=
  l.foldl (fun hm e => (hm.insert keq e.1 e.2).1) HeapMap.new

/-- `SmallHashMap::insert` (small_hash_map.rs:417-452).  Step 1: when inline,
find the key's existing index and decide
`should_transition = idx.is_none() && len >= transition_threshold`.
Step 2: when transitioning, drain the inline store into a new heap store and
switch the active variant.  Step 3: insert into whichever store is now active
— `insert_with_hint` with the step-1 index when still inline, the heap
store's insert otherwise.  `none` models a panic propagated from the inline
store. -/
def SmallHashMap.insert (keq : K → K → Bool) (m : SmallHashMap K V) (k : K)
    (v : V) : Option (SmallHashMap K V × Option V) :=
  let step1 : Bool × Option Nat :=
    match m.inner with
    | MapKind.InlineMap im =>
        let idx := im.find_key_index keq k
        (idx.isNone && decide (im.len ≥ m.transition_threshold), idx)
    | MapKind.HeapMap _ => (false, none)
  let m1 : SmallHashMap K V :=
    if step1.1 then
      match m.inner with
      | MapKind.InlineMap im =>
          { m with inner := MapKind.HeapMap (heapOfDrained keq im.drain.1) }
      | MapKind.HeapMap _ => m
    else m
  match m1.inner with
  | MapKind.InlineMap im =>
      (im.insert_with_hint m1.capN k v step1.2).map
        (fun r => ({ m1 with inner := MapKind.InlineMap r.1 }, r.2))
  | MapKind.HeapMap hm =>
      let r := hm.insert keq k v
      some ({ m1 with inner := MapKind.HeapMap r.1 }, r.2)

/-- The entry list of the active store, in storage order (insertion order while
inline; for the heap store the order is a modelling artifact, see `HeapMap`).
This is what `SmallHashMap::iter` (small_hash_map.rs:323-328) yields. -/
def SmallHashMap.pairs (m : SmallHashMap K V) : List (K × V) :=
  match m.inner with
  | MapKind.InlineMap im => im.entries
  | MapKind.HeapMap hm => hm.entries

/-- `PartialEq for SmallHashMap` (small_hash_map.rs:524-540): equal lengths and
every pair of `self` found in `other` with an equal value (`veq` models
`V: PartialEq`). -/
def SmallHashMap.beq (keq : K → K → Bool) (veq : V → V → Bool)
    (a b : SmallHashMap K V) : Bool :=
  if a.len ≠ b.len then false
  else a.pairs.all (fun p =>
    match b.get keq p.1 with
    | some v => veq p.2 v
    | none => false)

/-- Repeated `SmallHashMap::insert` over a list of pairs, in order, as
performed by `Extend::extend` (small_hash_map.rs:491-495); a panic (`none`)
propagates. -/
def SmallHashMap.insertMany (keq : K → K → Bool) (m : SmallHashMap K V) :
    List (K × V) → Option (SmallHashMap K V)
  | [] => some m
  | e :: rest =>
      match m.insert keq e.1 e.2 with
      | some r => SmallHashMap.insertMany keq r.1 rest
      | none => none

/-- A single public mutating operation on `SmallHashMap`, used to state
trace-level invariants over arbitrary operation sequences. -/
inductive MapOp (K V : Type) where
  | insert (k : K) (v : V)
  | remove (k : K)
  | clear
  | retain (f : K → V → Bool)

/-- Apply one public mutating operation; `none` models a panic. -/
def applyOp (keq : K → K → Bool) (m : SmallHashMap K V) :
    MapOp K V → Option (SmallHashMap K V)
  | MapOp.insert k v => (m.insert keq k v).map Prod.fst
  | MapOp.remove k => some (m.remove keq k).1
  | MapOp.clear => some m.clear
  | MapOp.retain f => some (m.retain f)

/-- Apply a sequence of public mutating operations, left to right. -/
def applyOps (keq : K → K → Bool) (m : SmallHashMap K V) :
    List (MapOp K V) → Option (SmallHashMap K V)
  | [] => some m
  | op :: rest =>
      match applyOp keq m op with
      | some m1 => applyOps keq m1 rest
      | none => none

/-! ### Relations between the linear scans -/

theorem findEntry_eq_none_iff {keq : K → K → Bool} {k : K} {l : List (K × V)} :
    findEntry keq k l = none ↔ ∀ e ∈ l, keq e.1 k = false := by
  induction l with
  | nil => simp [findEntry]
  | cons e rest ih =>
      by_cases h : keq e.1 k
      · simp [findEntry, h]
      · simp only [Bool.not_eq_true] at h
        simp [findEntry, h, ih]

theorem keq_of_findEntry_eq_some {keq : K → K → Bool} {k : K} {l : List (K × V)}
    {e : K × V} (hfind : findEntry keq k l = some e) : keq e.1 k = true := by
  induction l with
  | nil => simp [findEntry] at hfind
  | cons e0 rest ih =>
      by_cases h : keq e0.1 k
      · simp only [findEntry, h, if_true, Option.some.injEq] at hfind
        rw [← hfind]; exact h
      · simp only [Bool.not_eq_true] at h
        simp only [findEntry, h, Bool.false_eq_true, if_false] at hfind
        exact ih hfind

theorem mem_of_findEntry_eq_some {keq : K → K → Bool} {k : K} {l : List (K × V)}
    {e : K × V} (hfind : findEntry keq k l = some e) : e ∈ l := by
  induction l with
  | nil => simp [findEntry] at hfind
  | cons e0 rest ih =>
      by_cases h : keq e0.1 k
      · simp only [findEntry, h, if_true, Option.some.injEq] at hfind
        simp [hfind]
      · simp only [Bool.not_eq_true] at h
        simp only [findEntry, h, Bool.false_eq_true, if_false] at hfind
        exact List.mem_cons_of_mem _ (ih hfind)

theorem findEntry_append_of_none {keq : K → K → Bool} {k : K}
    {l l2 : List (K × V)} (hnone : findEntry keq k l = none) :
    findEntry keq k (l ++ l2) = findEntry keq k l2 := by
  induction l with
  | nil => simp
  | cons e rest ih =>
      by_cases h : keq e.1 k
      · simp [findEntry, h] at hnone
      · simp only [Bool.not_eq_true] at h
        simp only [findEntry, h, Bool.false_eq_true, if_false] at hnone
        simpa [findEntry, h] using ih hnone

theorem findIdxEntry_eq_none_iff {keq : K → K → Bool} {k : K} {l : List (K × V)} :
    findIdxEntry keq k l = none ↔ findEntry keq k l = none := by
  induction l with
  | nil => simp [findIdxEntry, findEntry]
  | cons e rest ih =>
      by_cases h : keq e.1 k
      · simp [findIdxEntry, findEntry, h]
      · simp only [Bool.not_eq_true] at h
        simp [findIdxEntry, findEntry, h, ih]

theorem findIdxEntry_some_spec {keq : K → K → Bool} {k : K} {l : List (K × V)}
    {i : Nat} (hidx : findIdxEntry keq k l = some i) :
    i < l.length ∧ l[i]? = findEntry keq k l := by
  induction l generalizing i with
  | nil => simp [findIdxEntry] at hidx
  | cons e rest ih =>
      by_cases h : keq e.1 k
      · simp only [findIdxEntry, h, if_true, Option.some.injEq] at hidx
        subst hidx
        simp [findEntry, h]
      · simp only [Bool.not_eq_true] at h
        simp only [findIdxEntry, h, Bool.false_eq_true, if_false,
          Option.map_eq_some'] at hidx
        obtain ⟨j, hj, hji⟩ := hidx
        obtain ⟨hlt, hget⟩ := ih hj
        subst hji
        constructor
        · simpa [Nat.succ_lt_succ_iff] using hlt
        · simpa [findEntry, h] using hget

theorem findEntry_some_exists_idx {keq : K → K → Bool} {k : K} {l : List (K × V)}
    {e : K × V} (hfind : findEntry keq k l = some e) :
    ∃ i, findIdxEntry keq k l = some i ∧ l[i]? = some e := by
  cases hidx : findIdxEntry keq k l with
  | none =>
      rw [findIdxEntry_eq_none_iff.mp hidx] at hfind
      exact absurd hfind (by simp)
  | some i =>
      obtain ⟨_, hget⟩ := findIdxEntry_some_spec hidx
      exact ⟨i, rfl, by rw [hget, hfind]⟩

theorem replaceValueScan_eq_none_iff {keq : K → K → Bool} {k : K} {v : V}
    {l : List (K × V)} :
    replaceValueScan keq k v l = none ↔ findEntry keq k l = none := by
  induction l with
  | nil => simp [replaceValueScan, findEntry]
  | cons e rest ih =>
      by_cases h : keq e.1 k
      · simp [replaceValueScan, findEntry, h]
      · simp only [Bool.not_eq_true] at h
        simp [replaceValueScan, findEntry, h, ih]

theorem replaceValueScan_of_findIdx {keq : K → K → Bool} {k : K} {v : V}
    {l : List (K × V)} {i : Nat} (hidx : findIdxEntry keq k l = some i) :
    ∃ e, l[i]? = some e ∧
      replaceValueScan keq k v l = some (l.set i (e.1, v), e.2) := by
  induction l generalizing i with
  | nil => simp [findIdxEntry] at hidx
  | cons e0 rest ih =>
      by_cases h : keq e0.1 k
      · simp only [findIdxEntry, h, if_true, Option.some.injEq] at hidx
        subst hidx
        exact ⟨e0, by simp, by simp [replaceValueScan, h]⟩
      · simp only [Bool.not_eq_true] at h
        simp only [findIdxEntry, h, Bool.false_eq_true, if_false,
          Option.map_eq_some'] at hidx
        obtain ⟨j, hj, hji⟩ := hidx
        obtain ⟨e, hget, hscan⟩ := ih hj
        subst hji
        exact ⟨e, by simpa using hget, by simp [replaceValueScan, h, hscan]⟩

theorem removeScan_eq_none_iff {keq : K → K → Bool} {k : K} {l : List (K × V)} :
    removeScan keq k l = none ↔ findEntry keq k l = none := by
  induction l with
  | nil => simp [removeScan, findEntry]
  | cons e rest ih =>
      by_cases h : keq e.1 k
      · simp [removeScan, findEntry, h]
      · simp only [Bool.not_eq_true] at h
        simp [removeScan, findEntry, h, ih]

theorem removeScan_snd {keq : K → K → Bool} {k : K} {l : List (K × V)} :
    (removeScan keq k l).map Prod.snd = (findEntry keq k l).map Prod.snd := by
  induction l with
  | nil => simp [removeScan, findEntry]
  | cons e rest ih =>
      by_cases h : keq e.1 k
      · simp [removeScan, findEntry, h]
      · simp only [Bool.not_eq_true] at h
        simp only [removeScan, findEntry, h, Bool.false_eq_true, if_false]
        rw [← ih]
        cases removeScan keq k rest <;> simp

theorem removeScan_of_findIdx {keq : K → K → Bool} {k : K} {l : List (K × V)}
    {i : Nat} (hidx : findIdxEntry keq k l = some i) :
    ∃ v0, removeScan keq k l = some (l.eraseIdx i, v0) := by
  induction l generalizing i with
  | nil => simp [findIdxEntry] at hidx
  | cons e0 rest ih =>
      by_cases h : keq e0.1 k
      · simp only [findIdxEntry, h, if_true, Option.some.injEq] at hidx
        subst hidx
        exact ⟨e0.2, by simp [removeScan, h]⟩
      · simp only [Bool.not_eq_true] at h
        simp only [findIdxEntry, h, Bool.false_eq_true, if_false,
          Option.map_eq_some'] at hidx
        obtain ⟨j, hj, hji⟩ := hidx
        obtain ⟨v0, hscan⟩ := ih hj
        subst hji
        exact ⟨v0, by simp [removeScan, h, hscan]⟩

theorem findEntry_set_of_findIdx {keq : K → K → Bool} {k k1 : K} {v : V}
    {l : List (K × V)} {i : Nat} (hidx : findIdxEntry keq k l = some i)
    (hk1 : keq k1 k = true) :
    findEntry keq k (l.set i (k1, v)) = some (k1, v) := by
  induction l generalizing i with
  | nil => simp [findIdxEntry] at hidx
  | cons e0 rest ih =>
      by_cases h : keq e0.1 k
      · simp only [findIdxEntry, h, if_true, Option.some.injEq] at hidx
        subst hidx
        simp [findEntry, hk1]
      · simp only [Bool.not_eq_true] at h
        simp only [findIdxEntry, h, Bool.false_eq_true, if_false,
          Option.map_eq_some'] at hidx
        obtain ⟨j, hj, hji⟩ := hidx
        subst hji
        simpa [findEntry, h] using ih hj

/-! ### The retain cursor loop computes a filter -/

theorem retainLoop_eq_aux {f : K → V → Bool} :
    ∀ (n i : Nat) (l : List (K × V)), l.length - i ≤ n →
      retainLoop f i l = l.take i ++ (l.drop i).filter (fun e => f e.1 e.2) := by
  intro n
  induction n with
  | zero =>
      intro i l hle
      rw [retainLoop]
      have hge : ¬ i < l.length := by omega
      rw [dif_neg hge, List.take_of_length_le (by omega),
        List.drop_eq_nil_of_le (by omega)]
      simp
  | succ n ih =>
      intro i l hle
      rw [retainLoop]
      by_cases h : i < l.length
      · rw [dif_pos h]
        by_cases hf : f (l.get ⟨i, h⟩).1 (l.get ⟨i, h⟩).2
        · rw [if_pos hf, ih (i + 1) l (by omega),
            List.drop_eq_getElem_cons h, List.filter_cons]
          simp only [List.get_eq_getElem] at hf
          rw [if_pos (show (fun e : K × V => f e.1 e.2) l[i] = true from hf),
            List.take_succ, List.getElem?_eq_getElem h, Option.toList_some,
            List.append_assoc, List.singleton_append]
        · have herase : (l.eraseIdx i).length - i ≤ n := by
            rw [List.length_eraseIdx]
            simp only [h, if_true]
            omega
          rw [if_neg hf, ih i (l.eraseIdx i) herase,
            List.eraseIdx_eq_take_drop_succ]
          have hlen : (l.take i).length = i :=
            List.length_take_of_le (Nat.le_of_lt h)
          rw [List.take_left' hlen, List.drop_left' hlen,
            List.drop_eq_getElem_cons h, List.filter_cons]
          simp only [List.get_eq_getElem] at hf
          rw [if_neg (show ¬ (fun e : K × V => f e.1 e.2) l[i] = true from hf)]
      · rw [dif_neg h, List.take_of_length_le (by omega),
          List.drop_eq_nil_of_le (by omega)]
        simp

theorem retainLoop_eq_filter (f : K → V → Bool) (l : List (K × V)) :
    retainLoop f 0 l = l.filter (fun e => f e.1 e.2) := by
  simpa using retainLoop_eq_aux l.length 0 l (by omega)

/-- C6: for every `InlineMap` and predicate, `retain` keeps exactly the
entries for which the predicate returned true — the resulting live prefix is
the filter of the previous one, so the survivors keep their previous relative
order (the result is a sublist of the original entries); the cursor loop
`retainLoop` it is defined from re-evaluates the entry shifted into the
current position instead of advancing past it after a removal. -/
theorem retain_keeps_exactly_predicate_true (f : K → V → Bool)
    (m : InlineMap K V) :
    (m.retain f).entries = m.entries.filter (fun e => f e.1 e.2) ∧
      (m.retain f).entries.Sublist m.entries := by
  have hmain : (m.retain f).entries = m.entries.filter (fun e => f e.1 e.2) :=
    retainLoop_eq_filter f m.entries
  exact ⟨hmain, hmain ▸ List.filter_sublist m.entries⟩

/-- C7: `InlineMap::remove` returns the stored value when the key is present,
erasing the found index (every later live entry shifts one position left, so
the remaining entries keep their relative order) and decrementing the length
by one; when the key is absent it returns `none` and leaves the map
unchanged. -/
theorem remove_erases_found_index (keq : K → K → Bool) (m : InlineMap K V)
    (k : K) :
    (m.remove keq k).2 = m.get keq k ∧
      (match m.find_key_index keq k with
       | some i => (m.remove keq k).1.entries = m.entries.eraseIdx i ∧
           m.len = (m.remove keq k).1.len + 1
       | none => m.remove keq k = (m, none)) := by
  constructor
  · cases hscan : removeScan keq k m.entries with
    | none =>
        have hfind : findEntry keq k m.entries = none :=
          removeScan_eq_none_iff.mp hscan
        simp [InlineMap.remove, InlineMap.get, hscan, hfind]
    | some r =>
        have h := @removeScan_snd K V keq k m.entries
        rw [hscan] at h
        simp only [Option.map_some'] at h
        simp [InlineMap.remove, InlineMap.get, hscan, ← h]
  · cases hidx : m.find_key_index keq k with
    | none =>
        have hfind : findEntry keq k m.entries = none :=
          findIdxEntry_eq_none_iff.mp hidx
        have hscan : removeScan keq k m.entries = none :=
          removeScan_eq_none_iff.mpr hfind
        simp [InlineMap.remove, hscan]
    | some i =>
        have hidx' : findIdxEntry keq k m.entries = some i := hidx
        obtain ⟨v0, hscan⟩ := removeScan_of_findIdx hidx'
        obtain ⟨hlt, -⟩ := findIdxEntry_some_spec hidx'
        refine ⟨by simp [InlineMap.remove, hscan], ?_⟩
        have herase : (m.entries.eraseIdx i).length = m.entries.length - 1 :=
          List.length_eraseIdx_of_lt hlt
        simp only [InlineMap.remove, hscan, InlineMap.len]
        omega

/-! ### Concrete instances used below -/

/-- Boolean equality on `Nat` keys, the `==` of `i32` keys in the tests. -/
def natBeq (a b : Nat) : Bool := a == b

/-- Key comparison on pairs that compares only the first component: a lawful
equivalence under which equal keys can carry different second components
(the situation `get_key_value` exists for, per its documentation). -/
def fstBeq (a b : Nat × Nat) : Bool := a.1 == b.1

/-- A one-entry inline store whose stored key is `(1, 0)`. -/
def exHintStore : InlineMap (Nat × Nat) Nat := ⟨[((1, 0), 10)]⟩

/-- C5 (counterexample): updating the key `(1, 1)` — equal under `fstBeq` to
the stored key `(1, 0)` — through `insert` keeps the stored key `(1, 0)`,
while `insert_with_hint` with the hint supplied by `find_key_index` replaces
it with `(1, 1)`; the two calls therefore do not leave the map in the same
observable state: `get_key_value` differs. -/
theorem insert_with_hint_not_identical_to_insert :
    InlineMap.insert fstBeq 4 exHintStore (1, 1) 20 ≠
      InlineMap.insert_with_hint 4 exHintStore (1, 1) 20
        (exHintStore.find_key_index fstBeq (1, 1)) ∧
    (InlineMap.insert fstBeq 4 exHintStore (1, 1) 20).map
      (fun r => r.1.get_key_value fstBeq (1, 1)) = some (some ((1, 0), 20)) ∧
    (InlineMap.insert_with_hint 4 exHintStore (1, 1) 20
        (exHintStore.find_key_index fstBeq (1, 1))).map
      (fun r => r.1.get_key_value fstBeq (1, 1)) = some (some ((1, 1), 20)) := by
  refine ⟨?_, ?_, ?_⟩ <;> decide

/-- C5 (amended): `insert_with_hint` fed the index found by `find_key_index`
has the same value-level contract as `insert` — when the key is absent the
two calls agree entirely (same result, same state, same panic behavior), and
when the key is present at index `i` both return the same old value and
produce the same entry list except at position `i`, where `insert` keeps the
previously stored key and `insert_with_hint` stores the newly supplied
key. -/
theorem insert_with_hint_agrees_except_stored_key (keq : K → K → Bool)
    (N : Nat) (m : InlineMap K V) (k : K) (v : V) :
    match m.find_key_index keq k with
    | none => m.insert_with_hint N k v none = m.insert keq N k v
    | some i => ∃ es old,
        m.insert keq N k v = some (⟨es⟩, some old) ∧
        m.insert_with_hint N k v (some i) = some (⟨es.set i (k, v)⟩, some old) := by
  cases hidx : m.find_key_index keq k with
  | none =>
      have hfind : findEntry keq k m.entries = none :=
        findIdxEntry_eq_none_iff.mp hidx
      have hscan : replaceValueScan keq k v m.entries = none :=
        replaceValueScan_eq_none_iff.mpr hfind
      simp [InlineMap.insert, InlineMap.insert_with_hint, hscan]
  | some i =>
      have hidx' : findIdxEntry keq k m.entries = some i := hidx
      obtain ⟨e, hget, hscan⟩ := replaceValueScan_of_findIdx (v := v) hidx'
      refine ⟨m.entries.set i (e.1, v), e.2, ?_, ?_⟩
      · simp [InlineMap.insert, hscan]
      · simp [InlineMap.insert_with_hint, hget, List.set_set]

/-- C3: the full-inline-store panic is unreachable through
`SmallHashMap::insert`: whenever the transition threshold does not exceed the
inline capacity `N` (every constructor sets both fields to `N`), `insert`
always returns a result, because promotion is checked and performed before
the insert is dispatched to the inline store. -/
theorem inline_full_panic_unreachable (keq : K → K → Bool)
    (m : SmallHashMap K V) (k : K) (v : V)
    (hcap : m.transition_threshold ≤ m.capN) :
    (m.insert keq k v).isSome = true := by
  cases hinner : m.inner with
  | HeapMap hm => simp [SmallHashMap.insert, hinner]
  | InlineMap im =>
      cases hidx : im.find_key_index keq k with
      | some i => simp [SmallHashMap.insert, hinner, hidx, InlineMap.insert_with_hint]
      | none =>
          by_cases hlen : im.len ≥ m.transition_threshold
          · simp [SmallHashMap.insert, hinner, hidx, hlen]
          · have hltN : ¬ im.entries.length ≥ m.capN := by
              simp only [InlineMap.len] at hlen
              omega
            simp [SmallHashMap.insert, hinner, hidx, hlen,
              InlineMap.insert_with_hint, hltN]

/-- Witness for C3 at a concrete map. -/
theorem inline_full_panic_unreachable_witness :
    ((SmallHashMap.new (K := Nat) (V := Nat) 2).insert natBeq 5 7).isSome = true :=
  inline_full_panic_unreachable natBeq (SmallHashMap.new 2) 5 7 (by decide)

/-! ### Storage-mode behavior of each public operation -/

theorem clear_is_inline (m : SmallHashMap K V) :
    m.clear.is_inline = m.is_inline := by
  cases hinner : m.inner <;>
    simp [SmallHashMap.clear, SmallHashMap.is_inline, hinner]

theorem remove_is_inline (keq : K → K → Bool) (m : SmallHashMap K V) (k : K) :
    (m.remove keq k).1.is_inline = m.is_inline := by
  cases hinner : m.inner <;>
    simp [SmallHashMap.remove, SmallHashMap.is_inline, hinner]

theorem retain_is_inline (f : K → V → Bool) (m : SmallHashMap K V) :
    (m.retain f).is_inline = m.is_inline := by
  cases hinner : m.inner <;>
    simp [SmallHashMap.retain, SmallHashMap.is_inline, hinner]

theorem insert_is_inline_of_heap {keq : K → K → Bool} {m : SmallHashMap K V}
    {k : K} {v : V} {m' : SmallHashMap K V} {old : Option V}
    (hins : m.insert keq k v = some (m', old)) (hheap : m.is_inline = false) :
    m'.is_inline = false := by
  cases hinner : m.inner with
  | InlineMap im => simp [SmallHashMap.is_inline, hinner] at hheap
  | HeapMap hm =>
      simp only [SmallHashMap.insert, hinner, Bool.false_and, Bool.false_eq_true,
        if_false, Option.some.injEq, Prod.mk.injEq] at hins
      obtain ⟨h1, -⟩ := hins
      rw [← h1]
      simp [SmallHashMap.is_inline]

theorem applyOp_heap_stays {keq : K → K → Bool} {m : SmallHashMap K V}
    {op : MapOp K V} {m' : SmallHashMap K V}
    (hstep : applyOp keq m op = some m') (hheap : m.is_inline = false) :
    m'.is_inline = false := by
  cases op with
  | insert k v =>
      simp only [applyOp, Option.map_eq_some'] at hstep
      obtain ⟨r, hr, hfst⟩ := hstep
      subst hfst
      exact @insert_is_inline_of_heap K V keq m k v r.1 r.2 (by rw [hr]) hheap
  | remove k =>
      simp only [applyOp, Option.some.injEq] at hstep
      rw [← hstep, remove_is_inline]
      exact hheap
  | clear =>
      simp only [applyOp, Option.some.injEq] at hstep
      rw [← hstep, clear_is_inline]
      exact hheap
  | retain f =>
      simp only [applyOp, Option.some.injEq] at hstep
      rw [← hstep, retain_is_inline]
      exact hheap

/-- C2: promotion is monotonic.  Any sequence of public mutating operations
(insert / remove / clear / retain, in particular any sequence of removals and
clears) applied to a map whose active variant is Heap leaves it in Heap mode;
and a single operation changes the storage mode only when it is an insert,
and then only from Inline to Heap. -/
theorem promotion_monotonic (keq : K → K → Bool) :
    (∀ (m : SmallHashMap K V) (ops : List (MapOp K V)) (m' : SmallHashMap K V),
      applyOps keq m ops = some m' → m.is_inline = false →
        m'.is_inline = false) ∧
    (∀ (m : SmallHashMap K V) (op : MapOp K V) (m' : SmallHashMap K V),
      applyOp keq m op = some m' → m'.is_inline ≠ m.is_inline →
        (∃ k v, op = MapOp.insert k v) ∧ m.is_inline = true ∧
          m'.is_inline = false) := by
  constructor
  · intro m ops
    induction ops generalizing m with
    | nil =>
        intro m' h hheap
        simp only [applyOps, Option.some.injEq] at h
        rw [← h]
        exact hheap
    | cons op rest ih =>
        intro m' h hheap
        cases hstep : applyOp keq m op with
        | none => simp [applyOps, hstep] at h
        | some m1 =>
            simp only [applyOps, hstep] at h
            exact ih m1 m' h (applyOp_heap_stays hstep hheap)
  · intro m op m' hstep hne
    cases op with
    | insert k v =>
        cases hmi : m.is_inline with
        | false =>
            exact absurd (applyOp_heap_stays hstep hmi) (by rw [hmi] at hne; exact hne)
        | true =>
            refine ⟨⟨k, v, rfl⟩, rfl, ?_⟩
            rw [hmi] at hne
            cases hmi' : m'.is_inline with
            | false => rfl
            | true => exact absurd (by rw [hmi']) hne
    | remove k =>
        simp only [applyOp, Option.some.injEq] at hstep
        rw [← hstep, remove_is_inline] at hne
        exact absurd rfl hne
    | clear =>
        simp only [applyOp, Option.some.injEq] at hstep
        rw [← hstep, clear_is_inline] at hne
        exact absurd rfl hne
    | retain f =>
        simp only [applyOp, Option.some.injEq] at hstep
        rw [← hstep, retain_is_inline] at hne
        exact absurd rfl hne

/-- A concrete map already in heap mode. -/
def exHeapOne : SmallHashMap Nat Nat := ⟨MapKind.HeapMap ⟨[(1, 2)]⟩, 4, 4⟩

/-- Witness for C2: a clear followed by a removal leaves a heap-mode map in
heap mode. -/
theorem promotion_monotonic_witness :
    ((exHeapOne.clear).remove natBeq 1).1.is_inline = false :=
  (promotion_monotonic natBeq).1 exHeapOne [MapOp.clear, MapOp.remove 1]
    ((exHeapOne.clear).remove natBeq 1).1 (by decide) (by decide)

/-! ### Heap-store insert lemmas -/

theorem heap_insert_preserves_not_found {keq : K → K → Bool} {q k : K}
    {hm : HeapMap K V} {v : V}
    (hacc : findEntry keq q hm.entries = none) (hk : keq k q = false) :
    findEntry keq q ((hm.insert keq k v).1).entries = none := by
  cases hfe : findEntry keq k hm.entries with
  | none =>
      have hscan : replaceValueScan keq k v hm.entries = none :=
        replaceValueScan_eq_none_iff.mpr hfe
      simp only [HeapMap.insert, hscan]
      rw [findEntry_append_of_none hacc]
      simp [findEntry, hk]
  | some e =>
      obtain ⟨i, hi, hget⟩ := findEntry_some_exists_idx hfe
      obtain ⟨e1, hget1, hscan⟩ := replaceValueScan_of_findIdx (v := v) hi
      rw [hget] at hget1
      injection hget1 with he1
      subst he1
      simp only [HeapMap.insert, hscan]
      rw [findEntry_eq_none_iff]
      intro e2 he2
      rcases List.mem_or_eq_of_mem_set he2 with hmem | heq
      · exact findEntry_eq_none_iff.mp hacc e2 hmem
      · subst heq
        exact findEntry_eq_none_iff.mp hacc e (List.getElem?_mem hget)

theorem heapFold_not_found {keq : K → K → Bool} {q : K} :
    ∀ (l : List (K × V)) (acc : HeapMap K V),
      findEntry keq q acc.entries = none → (∀ e ∈ l, keq e.1 q = false) →
      findEntry keq q
        (l.foldl (fun hm e => (hm.insert keq e.1 e.2).1) acc).entries = none := by
  intro l
  induction l with
  | nil => intro acc hacc _; simpa using hacc
  | cons e rest ih =>
      intro acc hacc hl
      simp only [List.foldl_cons]
      exact ih _ (heap_insert_preserves_not_found hacc (hl e (by simp)))
        (fun e' he' => hl e' (List.mem_cons_of_mem _ he'))

theorem heapOfDrained_not_found {keq : K → K → Bool} {q : K}
    {l : List (K × V)} (hl : ∀ e ∈ l, keq e.1 q = false) :
    findEntry keq q (heapOfDrained keq l).entries = none :=
  heapFold_not_found l HeapMap.new rfl hl

theorem heap_insert_get {keq : K → K → Bool} (hm : HeapMap K V) (k : K) (v : V)
    (hrefl : keq k k = true) :
    (hm.insert keq k v).2 = hm.get keq k ∧
      (hm.insert keq k v).1.get keq k = some v := by
  cases hfe : findEntry keq k hm.entries with
  | none =>
      have hscan : replaceValueScan keq k v hm.entries = none :=
        replaceValueScan_eq_none_iff.mpr hfe
      refine ⟨by simp [HeapMap.insert, hscan, HeapMap.get, hfe], ?_⟩
      simp [HeapMap.insert, hscan, HeapMap.get, findEntry_append_of_none hfe,
        findEntry, hrefl]
  | some e =>
      obtain ⟨i, hi, hget⟩ := findEntry_some_exists_idx hfe
      obtain ⟨e1, hget1, hscan⟩ := replaceValueScan_of_findIdx (v := v) hi
      rw [hget] at hget1
      injection hget1 with he1
      subst he1
      have hkeq : keq e.1 k = true := keq_of_findEntry_eq_some hfe
      refine ⟨by simp [HeapMap.insert, hscan, HeapMap.get, hfe], ?_⟩
      simp [HeapMap.insert, hscan, HeapMap.get,
        findEntry_set_of_findIdx hi hkeq]

theorem heap_insert_key_value {keq : K → K → Bool} {hm : HeapMap K V}
    {k : K} {v : V} {e : K × V}
    (hfe : findEntry keq k hm.entries = some e) :
    (hm.insert keq k v).2 = some e.2 ∧
      (hm.insert keq k v).1.get_key_value keq k = some (e.1, v) := by
  obtain ⟨i, hi, hget⟩ := findEntry_some_exists_idx hfe
  obtain ⟨e1, hget1, hscan⟩ := replaceValueScan_of_findIdx (v := v) hi
  rw [hget] at hget1
  injection hget1 with he1
  subst he1
  have hkeq : keq e.1 k = true := keq_of_findEntry_eq_some hfe
  exact ⟨by simp [HeapMap.insert, hscan], by
    simp [HeapMap.insert, hscan, HeapMap.get_key_value,
      findEntry_set_of_findIdx hi hkeq]⟩

theorem findIdxEntry_isSome_eq_findEntry {keq : K → K → Bool} {k : K}
    {l : List (K × V)} :
    (findIdxEntry keq k l).isSome = (findEntry keq k l).isSome := by
  cases hfe : findEntry keq k l with
  | none => simp [findIdxEntry_eq_none_iff.mpr hfe]
  | some e =>
      obtain ⟨i, hi, -⟩ := findEntry_some_exists_idx hfe
      simp [hi]

/-- C4: in both storage modes, `SmallHashMap::insert` returns exactly the
value previously stored for the key — `Some` precisely when the key was
present immediately before the call, `None` otherwise — and afterwards `get`
returns the newly inserted value. -/
theorem insert_returns_previous_value (keq : K → K → Bool)
    (m : SmallHashMap K V) (k : K) (v : V) (m' : SmallHashMap K V)
    (old : Option V) (hrefl : keq k k = true)
    (hins : m.insert keq k v = some (m', old)) :
    old = m.get keq k ∧ old.isSome = m.contains_key keq k ∧
      m'.get keq k = some v := by
  cases hinner : m.inner with
  | HeapMap hm =>
      simp only [SmallHashMap.insert, hinner, Bool.false_and, Bool.false_eq_true,
        if_false, Option.some.injEq, Prod.mk.injEq] at hins
      obtain ⟨h1, h2⟩ := hins
      obtain ⟨hold, hget⟩ := heap_insert_get hm k v hrefl
      refine ⟨?_, ?_, ?_⟩
      · rw [← h2, hold]
        simp [SmallHashMap.get, hinner]
      · rw [← h2, hold]
        simp [SmallHashMap.contains_key, hinner, HeapMap.contains_key,
          HeapMap.get]
      · rw [← h1]
        simpa [SmallHashMap.get] using hget
  | InlineMap im =>
      cases hidx : im.find_key_index keq k with
      | some i =>
          have hi : findIdxEntry keq k im.entries = some i := hidx
          obtain ⟨hlt, hget⟩ := findIdxEntry_some_spec hi
          simp only [SmallHashMap.insert, hinner, hidx, Option.isNone_some,
            Bool.false_and, Bool.false_eq_true, if_false,
            InlineMap.insert_with_hint, Option.map_some', Option.some.injEq,
            Prod.mk.injEq] at hins
          obtain ⟨h1, h2⟩ := hins
          refine ⟨?_, ?_, ?_⟩
          · rw [← h2, hget]
            simp [SmallHashMap.get, hinner, InlineMap.get]
          · rw [← h2, hget]
            simp [SmallHashMap.contains_key, hinner, InlineMap.contains_key,
              InlineMap.find_key_index, findIdxEntry_isSome_eq_findEntry,
              Option.isSome_map]
          · rw [← h1]
            simp [SmallHashMap.get, InlineMap.get,
              findEntry_set_of_findIdx hi hrefl]
      | none =>
          have hi : findIdxEntry keq k im.entries = none := hidx
          have hfe : findEntry keq k im.entries = none :=
            findIdxEntry_eq_none_iff.mp hi
          have hpre : old = m.get keq k ∧ old.isSome = m.contains_key keq k ↔
              old = none := by
            constructor
            · intro h; rw [h.1]; simp [SmallHashMap.get, hinner, InlineMap.get, hfe]
            · intro h
              subst h
              refine ⟨by simp [SmallHashMap.get, hinner, InlineMap.get, hfe], ?_⟩
              simp [SmallHashMap.contains_key, hinner, InlineMap.contains_key,
                InlineMap.find_key_index, hi]
          by_cases hlen : im.len ≥ m.transition_threshold
          · -- promotion path
            simp only [SmallHashMap.insert, hinner, hidx, Option.isNone_none,
              Bool.true_and, hlen, decide_eq_true_eq, if_true, if_pos,
              InlineMap.drain, Option.some.injEq, Prod.mk.injEq] at hins
            obtain ⟨h1, h2⟩ := hins
            have hnf : findEntry keq k (heapOfDrained keq im.entries).entries = none :=
              heapOfDrained_not_found (findEntry_eq_none_iff.mp hfe)
            obtain ⟨hold, hget⟩ := heap_insert_get (heapOfDrained keq im.entries) k v hrefl
            have holdnone : old = none := by
              rw [← h2, hold]
              simp [HeapMap.get, hnf]
            refine ⟨(hpre.mpr holdnone).1, (hpre.mpr holdnone).2, ?_⟩
            rw [← h1]
            simpa [SmallHashMap.get] using hget
          · -- still-inline append path
            simp only [SmallHashMap.insert, hinner, hidx, Option.isNone_none,
              Bool.true_and, decide_eq_true_eq, hlen, if_false,
              InlineMap.insert_with_hint] at hins
            by_cases hcapb : im.entries.length ≥ m.capN
            · simp only [hcapb, if_true, Option.map_none'] at hins
              exact absurd hins (by simp)
            · simp only [hcapb, if_false, Option.map_some', Option.some.injEq,
                Prod.mk.injEq] at hins
              obtain ⟨h1, h2⟩ := hins
              have holdnone : old = none := h2.symm
              refine ⟨(hpre.mpr holdnone).1, (hpre.mpr holdnone).2, ?_⟩
              rw [← h1]
              simp [SmallHashMap.get, InlineMap.get,
                findEntry_append_of_none hfe, findEntry, hrefl]

/-- A concrete inline-mode map holding key 1 with value 10. -/
def exInlineOne : SmallHashMap Nat Nat := ⟨MapKind.InlineMap ⟨[(1, 10)]⟩, 4, 4⟩

/-- Witness for C4: updating key 1 of `exInlineOne` returns the old value 10
and afterwards `get` returns 20. -/
theorem insert_returns_previous_value_witness :
    some 10 = exInlineOne.get natBeq 1 ∧
      (some 10 : Option Nat).isSome = exInlineOne.contains_key natBeq 1 ∧
      (⟨MapKind.InlineMap ⟨[(1, 20)]⟩, 4, 4⟩ : SmallHashMap Nat Nat).get natBeq 1 =
        some 20 :=
  insert_returns_previous_value natBeq exInlineOne 1 20
    ⟨MapKind.InlineMap ⟨[(1, 20)]⟩, 4, 4⟩ (some 10) (by decide) (by decide)

/-- C9: when `SmallHashMap::insert` updates a key that is already present,
the old value is returned in either mode, but in Inline mode the newly
supplied key object replaces the previously stored one (via
`insert_with_hint`), while in Heap mode the originally stored key object is
kept (std `HashMap` behavior); `get_key_value` then shows the
mode-dependent key. -/
theorem update_stored_key_mode_dependent (keq : K → K → Bool)
    (m : SmallHashMap K V) (k : K) (v : V) (k0 : K) (v0 : V)
    (hrefl : keq k k = true)
    (hfound : m.get_key_value keq k = some (k0, v0)) :
    ∃ m', m.insert keq k v = some (m', some v0) ∧
      m'.get_key_value keq k = some ((if m.is_inline then k else k0), v) := by
  cases hinner : m.inner with
  | HeapMap hm =>
      have hfe : findEntry keq k hm.entries = some (k0, v0) := by
        simpa [SmallHashMap.get_key_value, hinner, HeapMap.get_key_value]
          using hfound
      obtain ⟨hold, hkv⟩ := heap_insert_key_value (v := v) hfe
      refine ⟨{ m with inner := MapKind.HeapMap (hm.insert keq k v).1 }, ?_, ?_⟩
      · simp [SmallHashMap.insert, hinner, hold]
      · simp [SmallHashMap.get_key_value, SmallHashMap.is_inline, hinner, hkv]
  | InlineMap im =>
      have hfe : findEntry keq k im.entries = some (k0, v0) := by
        simpa [SmallHashMap.get_key_value, hinner, InlineMap.get_key_value]
          using hfound
      obtain ⟨i, hi, hget⟩ := findEntry_some_exists_idx hfe
      have hidx : im.find_key_index keq k = some i := hi
      refine ⟨{ m with inner := MapKind.InlineMap ⟨im.entries.set i (k, v)⟩ },
        ?_, ?_⟩
      · simp [SmallHashMap.insert, hinner, hidx, InlineMap.insert_with_hint,
          hget]
      · simp [SmallHashMap.get_key_value, SmallHashMap.is_inline, hinner,
          InlineMap.get_key_value, findEntry_set_of_findIdx hi hrefl]

/-- An inline-mode map whose single stored key is `(1, 0)`. -/
def exInlinePair : SmallHashMap (Nat × Nat) Nat :=
  ⟨MapKind.InlineMap ⟨[((1, 0), 10)]⟩, 4, 4⟩

/-- A heap-mode map whose single stored key is `(1, 0)`. -/
def exHeapPair : SmallHashMap (Nat × Nat) Nat :=
  ⟨MapKind.HeapMap ⟨[((1, 0), 10)]⟩, 4, 4⟩

/-- Witness for C9: with keys compared on the first component only, the same
update leaves stored key `(1, 1)` in inline mode and `(1, 0)` in heap mode,
so the two modes are distinguishable through `get_key_value`. -/
theorem update_stored_key_mode_dependent_witness :
    (∃ m', exInlinePair.insert fstBeq (1, 1) 20 = some (m', some 10) ∧
      m'.get_key_value fstBeq (1, 1) = some ((1, 1), 20)) ∧
    (∃ m', exHeapPair.insert fstBeq (1, 1) 20 = some (m', some 10) ∧
      m'.get_key_value fstBeq (1, 1) = some ((1, 0), 20)) := by
  constructor
  · have h := update_stored_key_mode_dependent fstBeq exInlinePair (1, 1) 20
      (1, 0) 10 (by decide) (by decide)
    simpa [exInlinePair, SmallHashMap.is_inline] using h
  · have h := update_stored_key_mode_dependent fstBeq exHeapPair (1, 1) 20
      (1, 0) 10 (by decide) (by decide)
    simpa [exHeapPair, SmallHashMap.is_inline] using h

/-! ### The inline length bound -/

theorem removeScan_length {keq : K → K → Bool} {k : K} :
    ∀ {l : List (K × V)} {r : List (K × V) × V},
      removeScan keq k l = some r → r.1.length + 1 = l.length := by
  intro l
  induction l with
  | nil => intro r h; simp [removeScan] at h
  | cons e rest ih =>
      intro r h
      by_cases hk : keq e.1 k
      · simp only [removeScan, hk, if_true, Option.some.injEq] at h
        rw [← h]
        simp
      · simp only [Bool.not_eq_true] at hk
        simp only [removeScan, hk, Bool.false_eq_true, if_false,
          Option.map_eq_some'] at h
        obtain ⟨r0, hr0, hr⟩ := h
        rw [← hr]
        simpa using ih hr0

/-- The inline length bound: whenever the active variant is Inline, the live
length does not exceed the inline capacity `N`. -/
def InlineLenInv (m : SmallHashMap K V) : Prop :=
  m.is_inline = true → m.len ≤ m.capN

/-- C10: the inline length bound holds in every reachable state — both
constructors establish it and every public mutating operation preserves it
(the inline store only appends when its length is strictly below `N`). -/
theorem inline_length_bounded (keq : K → K → Bool) :
    (∀ N : Nat, InlineLenInv (SmallHashMap.new (K := K) (V := V) N)) ∧
    (∀ N c : Nat, InlineLenInv (SmallHashMap.with_capacity (K := K) (V := V) N c)) ∧
    (∀ (m : SmallHashMap K V) (k : K) (v : V) (m' : SmallHashMap K V)
      (old : Option V), InlineLenInv m → m.insert keq k v = some (m', old) →
        InlineLenInv m') ∧
    (∀ (m : SmallHashMap K V) (k : K), InlineLenInv m →
      InlineLenInv (m.remove keq k).1) ∧
    (∀ m : SmallHashMap K V, InlineLenInv m.clear) ∧
    (∀ (f : K → V → Bool) (m : SmallHashMap K V), InlineLenInv m →
      InlineLenInv (m.retain f)) := by
  refine ⟨?_, ?_, ?_, ?_, ?_, ?_⟩
  · intro N _
    simp [SmallHashMap.new, SmallHashMap.len, InlineMap.new, InlineMap.len]
  · intro N c
    by_cases hc : c > N
    · intro h
      simp [SmallHashMap.with_capacity, hc, SmallHashMap.is_inline] at h
    · intro _
      simp [SmallHashMap.with_capacity, hc, SmallHashMap.len, InlineMap.new,
        InlineMap.len]
  · intro m k v m' old hinv hins
    cases hinner : m.inner with
    | HeapMap hm =>
        simp only [SmallHashMap.insert, hinner, Bool.false_and,
          Bool.false_eq_true, if_false, Option.some.injEq, Prod.mk.injEq] at hins
        obtain ⟨h1, -⟩ := hins
        rw [← h1]
        intro h
        simp [SmallHashMap.is_inline] at h
    | InlineMap im =>
        have hlenm : m.len = im.entries.length := by
          simp [SmallHashMap.len, hinner, InlineMap.len]
        cases hidx : im.find_key_index keq k with
        | some i =>
            simp only [SmallHashMap.insert, hinner, hidx, Option.isNone_some,
              Bool.false_and, Bool.false_eq_true, if_false,
              InlineMap.insert_with_hint, Option.map_some', Option.some.injEq,
              Prod.mk.injEq] at hins
            obtain ⟨h1, -⟩ := hins
            rw [← h1]
            intro _
            have hm : m.is_inline = true := by simp [SmallHashMap.is_inline, hinner]
            have := hinv hm
            simp only [SmallHashMap.len, InlineMap.len, List.length_set]
            rw [hlenm] at this
            exact this
        | none =>
            by_cases hlen : im.len ≥ m.transition_threshold
            · simp only [SmallHashMap.insert, hinner, hidx, Option.isNone_none,
                Bool.true_and, hlen, decide_eq_true_eq, if_true, if_pos,
                InlineMap.drain, Option.some.injEq, Prod.mk.injEq] at hins
              obtain ⟨h1, -⟩ := hins
              rw [← h1]
              intro h
              simp [SmallHashMap.is_inline] at h
            · simp only [SmallHashMap.insert, hinner, hidx, Option.isNone_none,
                Bool.true_and, decide_eq_true_eq, hlen, if_false,
                InlineMap.insert_with_hint] at hins
              by_cases hcapb : im.entries.length ≥ m.capN
              · simp only [hcapb, if_true, Option.map_none'] at hins
                exact absurd hins (by simp)
              · simp only [hcapb, if_false, Option.map_some', Option.some.injEq,
                  Prod.mk.injEq] at hins
                obtain ⟨h1, -⟩ := hins
                rw [← h1]
                intro _
                simp only [SmallHashMap.len, InlineMap.len, List.length_append,
                  List.length_singleton]
                omega
  · intro m k hinv
    cases hinner : m.inner with
    | HeapMap hm =>
        intro h
        simp [SmallHashMap.remove, SmallHashMap.is_inline, hinner] at h
    | InlineMap im =>
        intro _
        have hm : m.is_inline = true := by simp [SmallHashMap.is_inline, hinner]
        have hbound := hinv hm
        have hlenm : m.len = im.entries.length := by
          simp [SmallHashMap.len, hinner, InlineMap.len]
        rw [hlenm] at hbound
        cases hscan : removeScan keq k im.entries with
        | none =>
            simp only [SmallHashMap.remove, hinner, InlineMap.remove, hscan]
            simpa [SmallHashMap.len, InlineMap.len] using hbound
        | some r =>
            have := removeScan_length hscan
            simp only [SmallHashMap.remove, hinner, InlineMap.remove, hscan]
            simp only [SmallHashMap.len, InlineMap.len]
            omega
  · intro m
    cases hinner : m.inner with
    | HeapMap hm =>
        intro h
        simp [SmallHashMap.clear, SmallHashMap.is_inline, hinner] at h
    | InlineMap im =>
        intro _
        simp [SmallHashMap.clear, hinner, SmallHashMap.len, InlineMap.clear,
          InlineMap.len]
  · intro f m hinv
    cases hinner : m.inner with
    | HeapMap hm =>
        intro h
        simp [SmallHashMap.retain, SmallHashMap.is_inline, hinner] at h
    | InlineMap im =>
        intro _
        have hm : m.is_inline = true := by simp [SmallHashMap.is_inline, hinner]
        have hbound := hinv hm
        have hlenm : m.len = im.entries.length := by
          simp [SmallHashMap.len, hinner, InlineMap.len]
        rw [hlenm] at hbound
        have hfilter := retainLoop_eq_filter f im.entries
        simp only [SmallHashMap.retain, hinner, SmallHashMap.len,
          InlineMap.retain, InlineMap.len, hfilter]
        calc (im.entries.filter (fun e => f e.1 e.2)).length
            ≤ im.entries.length := List.length_filter_le _ _
          _ ≤ m.capN := hbound

/-- Witness for C10: the invariant holds after removing from a concrete
inline map. -/
theorem inline_length_bounded_witness :
    InlineLenInv ((exInlineOne.remove natBeq 1).1) :=
  (inline_length_bounded natBeq).2.2.2.1 exInlineOne 1 (fun _ => by decide)

/-! ### Filling the inline store and draining it into the heap store -/

theorem heapFold_builds {keq : K → K → Bool} :
    ∀ (l : List (K × V)) (acc : HeapMap K V),
      (∀ e ∈ l, findEntry keq e.1 acc.entries = none) →
      List.Pairwise (fun a b : K × V => keq a.1 b.1 = false) l →
      l.foldl (fun hm e => (hm.insert keq e.1 e.2).1) acc =
        ⟨acc.entries ++ l⟩ := by
  intro l
  induction l with
  | nil => intro acc _ _; simp
  | cons e rest ih =>
      intro acc hfresh hpw
      obtain ⟨hrel, hpw'⟩ := List.pairwise_cons.mp hpw
      have hfe : findEntry keq e.1 acc.entries = none := hfresh e (by simp)
      have hscan : replaceValueScan keq e.1 e.2 acc.entries = none :=
        replaceValueScan_eq_none_iff.mpr hfe
      have hstep : (acc.insert keq e.1 e.2).1 =
          (⟨acc.entries ++ [e]⟩ : HeapMap K V) := by
        simp [HeapMap.insert, hscan]
      have hfresh' : ∀ q ∈ rest,
          findEntry keq q.1 ((⟨acc.entries ++ [e]⟩ : HeapMap K V)).entries = none := by
        intro q hq
        rw [findEntry_append_of_none (hfresh q (List.mem_cons_of_mem _ hq))]
        simp [findEntry, hrel q hq]
      simp only [List.foldl_cons, hstep, ih _ hfresh' hpw']
      simp

theorem insertMany_inline_fill {keq : K → K → Bool} :
    ∀ (l es : List (K × V)) (N : Nat),
      (∀ p ∈ l, findEntry keq p.1 es = none) →
      List.Pairwise (fun a b : K × V => keq a.1 b.1 = false) l →
      es.length + l.length ≤ N →
      SmallHashMap.insertMany keq ⟨MapKind.InlineMap ⟨es⟩, N, N⟩ l =
        some ⟨MapKind.InlineMap ⟨es ++ l⟩, N, N⟩ := by
  intro l
  induction l with
  | nil => intro es N _ _ _; simp [SmallHashMap.insertMany]
  | cons p rest ih =>
      intro es N hfresh hpw hlen
      obtain ⟨hrel, hpw'⟩ := List.pairwise_cons.mp hpw
      have hfe : findEntry keq p.1 es = none := hfresh p (by simp)
      have hidx : findIdxEntry keq p.1 es = none :=
        findIdxEntry_eq_none_iff.mpr hfe
      have hlt : es.length < N := by
        simp only [List.length_cons] at hlen
        omega
      have hnotlen : ¬ ((⟨es⟩ : InlineMap K V).len ≥ N) := by
        show ¬ (es.length ≥ N)
        omega
      have hnotcap : ¬ (es.length ≥ N) := by omega
      have hins : SmallHashMap.insert keq
          (⟨MapKind.InlineMap ⟨es⟩, N, N⟩ : SmallHashMap K V) p.1 p.2 =
          some (⟨MapKind.InlineMap ⟨es ++ [p]⟩, N, N⟩, none) := by
        simp [SmallHashMap.insert, InlineMap.find_key_index, hidx, hnotlen,
          InlineMap.insert_with_hint, hnotcap]
      have hfresh' : ∀ q ∈ rest, findEntry keq q.1 (es ++ [p]) = none := by
        intro q hq
        rw [findEntry_append_of_none (hfresh q (List.mem_cons_of_mem _ hq))]
        simp [findEntry, hrel q hq]
      have hlen' : (es ++ [p]).length + rest.length ≤ N := by
        simp at hlen ⊢
        omega
      simp only [SmallHashMap.insertMany, hins, ih (es ++ [p]) N hfresh' hpw' hlen']
      simp

theorem findEntry_of_mem_pairwise {keq : K → K → Bool} :
    ∀ (l : List (K × V)) (p : K × V),
      List.Pairwise (fun a b : K × V => keq a.1 b.1 = false) l → p ∈ l →
      keq p.1 p.1 = true → findEntry keq p.1 l = some p := by
  intro l
  induction l with
  | nil => intro p _ hmem _; simp at hmem
  | cons q rest ih =>
      intro p hpw hmem hrefl
      obtain ⟨hrel, hpw'⟩ := List.pairwise_cons.mp hpw
      rcases List.mem_cons.mp hmem with heq | hmem'
      · subst heq
        simp [findEntry, hrefl]
      · have hq : keq q.1 p.1 = false := hrel p hmem'
        simp [findEntry, hq, ih p hpw' hmem' hrefl]

theorem insertMany_append {keq : K → K → Bool} :
    ∀ (l1 l2 : List (K × V)) (m : SmallHashMap K V),
      SmallHashMap.insertMany keq m (l1 ++ l2) =
        (SmallHashMap.insertMany keq m l1).bind
          (fun m1 => SmallHashMap.insertMany keq m1 l2) := by
  intro l1
  induction l1 with
  | nil => intro l2 m; simp [SmallHashMap.insertMany]
  | cons e rest ih =>
      intro l2 m
      simp only [List.cons_append, SmallHashMap.insertMany]
      cases hins : m.insert keq e.1 e.2 with
      | none => simp
      | some r => simp [ih]

/-- C1: promotion preserves data — starting from an empty map of inline
capacity `N` and inserting `N + 1` pairs whose keys are pairwise distinct
(and each self-equal under `keq`), the map ends in Heap mode with all `N + 1`
entries, and `get` returns the value inserted for every one of the keys. -/
theorem promotion_preserves_data (keq : K → K → Bool) (N : Nat)
    (l : List (K × V)) (hlen : l.length = N + 1)
    (hrefl : ∀ p ∈ l, keq p.1 p.1 = true)
    (hpw : List.Pairwise (fun a b : K × V => keq a.1 b.1 = false) l) :
    ∃ m, SmallHashMap.insertMany keq (SmallHashMap.new N) l = some m ∧
      m.is_inline = false ∧ m.len = N + 1 ∧
      ∀ p ∈ l, m.get keq p.1 = some p.2 := by
  rcases List.eq_nil_or_concat l with rfl | ⟨l1, p, rfl⟩
  · simp at hlen
  · rw [List.concat_eq_append] at hlen hrefl hpw ⊢
    have hl1len : l1.length = N := by
      simp only [List.length_append, List.length_cons, List.length_nil] at hlen
      omega
    obtain ⟨hpw1, hpwp, hcross⟩ := List.pairwise_append.mp hpw
    have hfill := @insertMany_inline_fill K V keq l1 [] N
      (by intro q hq; rfl) hpw1 (by simp [hl1len])
    have hfel1 : findEntry keq p.1 l1 = none := by
      rw [findEntry_eq_none_iff]
      intro e he
      exact hcross e he p (by simp)
    have hidx : findIdxEntry keq p.1 l1 = none :=
      findIdxEntry_eq_none_iff.mpr hfel1
    have hheap : heapOfDrained keq l1 = ⟨l1⟩ := by
      have hb := @heapFold_builds K V keq l1 HeapMap.new
        (by intro e _; rfl) hpw1
      simpa [heapOfDrained, HeapMap.new] using hb
    have hscan : replaceValueScan keq p.1 p.2 l1 = none :=
      replaceValueScan_eq_none_iff.mpr hfel1
    have hge : (⟨l1⟩ : InlineMap K V).len ≥ N := by
      show l1.length ≥ N
      omega
    have hins : SmallHashMap.insert keq
        (⟨MapKind.InlineMap ⟨l1⟩, N, N⟩ : SmallHashMap K V) p.1 p.2 =
        some (⟨MapKind.HeapMap ⟨l1 ++ [p]⟩, N, N⟩, none) := by
      simp [SmallHashMap.insert, InlineMap.find_key_index, hidx, hge,
        InlineMap.drain, hheap, HeapMap.insert, hscan]
    rw [insertMany_append]
    have hnew : (SmallHashMap.new N : SmallHashMap K V) =
        ⟨MapKind.InlineMap ⟨[]⟩, N, N⟩ := rfl
    rw [hnew, hfill]
    simp only [List.nil_append]
    refine ⟨⟨MapKind.HeapMap ⟨l1 ++ [p]⟩, N, N⟩, ?_, rfl, ?_, ?_⟩
    · simp only [Option.some_bind, SmallHashMap.insertMany, hins]
    · simp only [SmallHashMap.len, HeapMap.len, List.length_append,
        List.length_cons, List.length_nil]
      omega
    · intro q hq
      have hfq := findEntry_of_mem_pairwise (l1 ++ [p]) q hpw hq (hrefl q hq)
      simp [SmallHashMap.get, HeapMap.get, hfq]

/-- Witness for C1 at inline capacity 2 with three distinct keys. -/
theorem promotion_preserves_data_witness :
    ∃ m, SmallHashMap.insertMany natBeq (SmallHashMap.new (V := Nat) 2)
        [(0, 10), (1, 11), (2, 12)] = some m ∧
      m.is_inline = false ∧ m.len = 2 + 1 ∧
      ∀ p ∈ [(0, 10), (1, 11), (2, 12)], m.get natBeq p.1 = some p.2 :=
  promotion_preserves_data natBeq 2 [(0, 10), (1, 11), (2, 12)] (by decide)
    (by decide) (by decide)

/-- An inline-mode map holding the pairs 1 ↦ 10 and 2 ↦ 20, inline
capacity 4. -/
def exEqInline : SmallHashMap Nat Nat :=
  (SmallHashMap.insertMany natBeq (SmallHashMap.new 4) [(1, 10), (2, 20)]).getD
    (SmallHashMap.new 4)

/-- A heap-mode map holding the same pairs, built from a capacity hint of 10
on inline capacity 2, so it is heap-mode from construction. -/
def exEqHeap : SmallHashMap Nat Nat :=
  (SmallHashMap.insertMany natBeq (SmallHashMap.with_capacity 2 10)
    [(1, 10), (2, 20)]).getD (SmallHashMap.new 2)

/-- C8: equality of `SmallHashMap`s is structural and parameter-independent —
`==` returns true exactly when the maps have equal length and every key-value
pair of the first is found in the second with an equal value, whatever either
map's storage mode or inline-capacity constant is; in particular the
inline-mode map {1 ↦ 10, 2 ↦ 20} (capacity 4) and the heap-mode map with
identical pairs built via a large capacity hint (capacity 2) compare
equal. -/
theorem structural_equality_mode_independent :
    (∀ (keq : K → K → Bool) (veq : V → V → Bool) (a b : SmallHashMap K V),
      SmallHashMap.beq keq veq a b = true ↔
        (a.len = b.len ∧ ∀ p ∈ a.pairs, ∃ w, b.get keq p.1 = some w ∧
          veq p.2 w = true)) ∧
    SmallHashMap.beq natBeq natBeq exEqInline exEqHeap = true ∧
    exEqInline.is_inline = true ∧ exEqHeap.is_inline = false ∧
    exEqInline.capN = 4 ∧ exEqHeap.capN = 2 := by
  refine ⟨?_, by decide, by decide, by decide, by decide, by decide⟩
  intro keq veq a b
  unfold SmallHashMap.beq
  by_cases hlen : a.len = b.len
  · rw [if_neg (show ¬ a.len ≠ b.len from fun hc => hc hlen),
      List.all_eq_true]
    constructor
    · intro h
      refine ⟨hlen, ?_⟩
      intro p hp
      have hx := h p hp
      cases hget : b.get keq p.1 with
      | none => rw [hget] at hx; simp at hx
      | some w => rw [hget] at hx; exact ⟨w, rfl, hx⟩
    · rintro ⟨-, h⟩ p hp
      obtain ⟨w, hget, hveq⟩ := h p hp
      rw [hget]
      exact hveq
  · rw [if_pos hlen]
    constructor
    · intro h
      exact absurd h (by simp)
    · rintro ⟨h1, -⟩
      exact absurd h1 hlen
